import Mathlib

/-!
Verification of `xls/dslx/interpreter/jit_comparison.py`: the value
converter, value comparator and word-packing codec that bridge the DSLX
interpreter's value model and the native (IR/JIT) value model.

External collaborator types (`xls.ir.python.bits.Bits`, the DSLX
interpreter `Value`, `bit_helpers`, `number_parser`) are not part of the
translated source file; they are modelled from the specification, and
each such definition's doc comment says so.
-/

/-- The 64-bit word size constant `WORD_SIZE` from the source. -/
def WORD_SIZE : Nat := 64

/-- Modelled from the spec: the native `Bits` type (`xls.ir.python.bits`,
not under `src/`) is "an ordered sequence of fixed-size (64-bit) unsigned
words, least-significant word first, plus a declared bit count". -/
structure IRBits where
  words : List Nat
  bit_count : Nat
deriving DecidableEq, Repr

/-- Modelled from the spec: the native accessor `Bits.word_to_uint`
(not under `src/`) reads word `word_number` of the word sequence. -/
def IRBits.word_to_uint (b : IRBits) (word_number : Nat) : Nat :=
  b.words.getD word_number 0

/-- Translation of the `while (word_number * 64) < bit_count` loop in
`get_bits`: or-accumulates each word shifted to its position. -/
def get_bits_loop (jit_bits : IRBits) (word_number bits_value : Nat) : Nat :=
  if _h : word_number * 64 < jit_bits.bit_count then
    get_bits_loop jit_bits (word_number + 1)
      ((jit_bits.word_to_uint word_number <<< (word_number * WORD_SIZE)) ||| bits_value)
  else
    bits_value
termination_by jit_bits.bit_count - word_number * 64
decreasing_by omega

/-- Modelled from the spec: `bit_helpers.from_twos_complement` (not under
`src/`): "if the value's most significant bit (`bit_count - 1`) is set,
subtract `2^bit_count` from the unsigned value to obtain the signed value;
otherwise return the unsigned value unchanged". -/
def from_twos_complement (value : Nat) (bit_count : Nat) : Int :=
  if value.testBit (bit_count - 1) then (value : Int) - 2 ^ bit_count
  else (value : Int)

/-- Translation of `get_bits(jit_bits, signed)`: reconstructs the integer
held by a native Bits value, reading one 64-bit word at a time. -/
def get_bits (jit_bits : IRBits) (signed : Bool) : Int :=
  let bits_value := get_bits_loop jit_bits 0 0
  if !signed then (bits_value : Int)
  else from_twos_complement bits_value jit_bits.bit_count

/-- Number of iterations of the `get_bits` word loop: the least `k` with
`k * 64 ≥ bit_count`, i.e. `⌈bit_count / 64⌉`. -/
def numWords (bit_count : Nat) : Nat := (bit_count + 63) / 64

/-- Modelled from the spec: the DSLX interpreter `Value`
(`xls.dslx.interpreter.value`, not under `src/`) is "a tagged variant"
over `Bits` (magnitude, width, signedness flag), `Enum` (bit-represented,
otherwise identical), `Array`, `Tuple`, and "other interpreter-representable
types (e.g. function values)" that are not convertible; a `Bits`/`Enum`
stores its raw `bit_count`-wide bit pattern as the natural `value`. -/
inductive InterpValue where
  | bits (signed : Bool) (bit_count : Nat) (value : Nat)
  | enum (signed : Bool) (bit_count : Nat) (value : Nat)
  | array (elements : List InterpValue)
  | tuple (members : List InterpValue)
  | other
deriving Repr

/-- Modelled from the spec: interpreter accessor `get_bit_count`
(the value's declared bit width; only queried on `Bits`/`Enum`). -/
def InterpValue.get_bit_count : InterpValue → Nat
  | .bits _ bit_count _ => bit_count
  | .enum _ bit_count _ => bit_count
  | _ => 0

/-- Modelled from the spec: interpreter accessor `get_bits_value`, the
"unsigned numeric value" of a `Bits`/`Enum` (its raw bit pattern). -/
def InterpValue.get_bits_value : InterpValue → Nat
  | .bits _ _ value => value
  | .enum _ _ value => value
  | _ => 0

/-- Modelled from the spec: interpreter accessor `get_bits_value_signed`,
the "signed (two's-complement) numeric value" of a `Bits`/`Enum`. -/
def InterpValue.get_bits_value_signed : InterpValue → Int
  | .bits _ bit_count value => from_twos_complement value bit_count
  | .enum _ bit_count value => from_twos_complement value bit_count
  | _ => 0

/-- Modelled from the spec: interpreter predicate `is_ubits`: true exactly
for an unsigned `Bits` value (an `Enum` is not `ubits`). -/
def InterpValue.is_ubits : InterpValue → Bool
  | .bits signed _ _ => !signed
  | _ => false

/-- Modelled from the spec: interpreter accessor `get_bits_value_check_sign`:
"the integer magnitude, already sign-resolved by the interpreter's own
accessor — a signed or unsigned integer depending on signedness". -/
def InterpValue.get_bits_value_check_sign : InterpValue → Int
  | .bits signed bit_count value =>
      if signed then from_twos_complement value bit_count else (value : Int)
  | .enum signed bit_count value =>
      if signed then from_twos_complement value bit_count else (value : Int)
  | _ => 0

/-- The native (IR) value variants: `Bits`, `Array`, `Tuple`
(`xls.ir.python.value.Value`, mirrored structurally). -/
inductive IRValue where
  | bits (b : IRBits)
  | array (elements : List IRValue)
  | tuple (elements : List IRValue)
deriving Repr

/-- Native predicate `is_bits`. -/
def IRValue.is_bits : IRValue → Bool
  | .bits _ => true
  | _ => false

/-- Native predicate `is_array`. -/
def IRValue.is_array : IRValue → Bool
  | .array _ => true
  | _ => false

/-- Native predicate `is_tuple`. -/
def IRValue.is_tuple : IRValue → Bool
  | .tuple _ => true
  | _ => false

/-- Native accessor `get_elements` for `Array`/`Tuple`. -/
def IRValue.get_elements : IRValue → List IRValue
  | .array elements => elements
  | .tuple elements => elements
  | .bits _ => []

/-- Modelled from the spec: the native constructor `UBits(value, bit_count)`
(not under `src/`) builds "a single-word Native Bits value directly from the
integer, using the unsigned encoding" (precondition `value < 2^bit_count`). -/
def UBits (value : Nat) (bit_count : Nat) : IRBits :=
  ⟨[value], bit_count⟩

/-- Modelled from the spec: the native constructor `SBits(value, bit_count)`
(not under `src/`) builds a single-word Native Bits value holding the
`bit_count`-wide two's-complement pattern of the (negative) integer. -/
def SBits (value : Int) (bit_count : Nat) : IRBits :=
  ⟨[(value % ((2 : Int) ^ bit_count)).toNat], bit_count⟩

/-- Little-endian split of a bit pattern into `k` 64-bit words. -/
def natToWords : Nat → Nat → List Nat
  | 0, _ => []
  | k + 1, p => p % 2 ^ 64 :: natToWords k (p / 2 ^ 64)

/-- Modelled from the spec: the composition
`number_parser.bits_from_string(bit_helpers.to_hex_string(value, bit_count))`
(both helpers not under `src/`): "render `value` as its exact
two's-complement hexadecimal representation at the requested width ...
then parse that hexadecimal string into a multi-word Native Bits value of
the declared width"; per the spec's design notes this "is equivalent" to
emitting the word array of the `bit_count`-wide two's-complement pattern
directly "by repeated division/masking". -/
def bits_from_twos_complement_hex (value : Int) (bit_count : Nat) : IRBits :=
  ⟨natToWords (numWords bit_count) ((value % ((2 : Int) ^ bit_count)).toNat),
   bit_count⟩

/-- Translation of `_int_to_bits(value, bit_count)`. -/
def int_to_bits (value : Int) (bit_count : Nat) : IRBits :=
  if bit_count ≤ WORD_SIZE then
    if 0 ≤ value then UBits value.toNat bit_count else SBits value bit_count
  else
    bits_from_twos_complement_hex value bit_count

/-- Failure outcomes of the converter and the comparator:
`UnsupportedConversionError`, and a failed `assert` (an equivalence
mismatch between the two evaluators). -/
inductive JitFailure where
  | unsupportedConversion
  | equivalenceMismatch
deriving DecidableEq, Repr

mutual

/-- Translation of `convert_interpreter_value_to_ir`: recursively
translates a DSLX interpreter value into an IR value. -/
def convert_interpreter_value_to_ir : InterpValue → Except JitFailure IRValue
  | v@(.bits _ _ _) =>
      .ok (.bits (int_to_bits v.get_bits_value_check_sign v.get_bit_count))
  | v@(.enum _ _ _) =>
      .ok (.bits (int_to_bits v.get_bits_value_check_sign v.get_bit_count))
  | .array elements =>
      match convert_value_list elements with
      | .error err => .error err
      | .ok ir_arr => .ok (.array ir_arr)
  | .tuple members =>
      match convert_value_list members with
      | .error err => .error err
      | .ok ir_tuple => .ok (.tuple ir_tuple)
  | .other => .error .unsupportedConversion

/-- The element loop shared by the `Array`/`Tuple` cases of
`convert_interpreter_value_to_ir` (appends converted elements in order). -/
def convert_value_list : List InterpValue → Except JitFailure (List IRValue)
  | [] => .ok []
  | e :: rest =>
      match convert_interpreter_value_to_ir e with
      | .error err => .error err
      | .ok ir =>
          match convert_value_list rest with
          | .error err => .error err
          | .ok irs => .ok (ir :: irs)

end

/-- Translation of `convert_args_to_ir`: converts each argument in order. -/
def convert_args_to_ir (args : List InterpValue) :
    Except JitFailure (List IRValue) :=
  convert_value_list args

/-- The `Bits`/`Enum` body of `compare_values` after the `is_bits` assert:
checks equal bit counts, then exact numeric equality, reading the
interpreter side with its declared signedness and decoding the native side
via `get_bits` with the matching flag. -/
def compare_bits_values (interpreter_value : InterpValue) (jb : IRBits) :
    Except JitFailure Unit :=
  if interpreter_value.get_bit_count = jb.bit_count then
    if interpreter_value.is_ubits then
      if (interpreter_value.get_bits_value : Int) = get_bits jb false then
        .ok ()
      else .error .equivalenceMismatch
    else
      if interpreter_value.get_bits_value_signed = get_bits jb true then
        .ok ()
      else .error .equivalenceMismatch
  else .error .equivalenceMismatch

mutual

/-- Translation of `compare_values`: asserts equality between a DSLX
interpreter value and an IR value, recursing through arrays and tuples; a
failed `assert` is an equivalence mismatch. -/
def compare_values (interpreter_value : InterpValue) (jit_value : IRValue) :
    Except JitFailure Unit :=
  match interpreter_value with
  | .bits _ _ _ =>
      match jit_value with
      | .bits jb => compare_bits_values interpreter_value jb
      | _ => .error .equivalenceMismatch
  | .enum _ _ _ =>
      match jit_value with
      | .bits jb => compare_bits_values interpreter_value jb
      | _ => .error .equivalenceMismatch
  | .array elements =>
      match jit_value with
      | .array jit_elements =>
          if elements.length = jit_elements.length then
            compare_value_lists elements jit_elements
          else .error .equivalenceMismatch
      | _ => .error .equivalenceMismatch
  | .tuple members =>
      match jit_value with
      | .tuple jit_elements =>
          if members.length = jit_elements.length then
            compare_value_lists members jit_elements
          else .error .equivalenceMismatch
      | _ => .error .equivalenceMismatch
  | .other => .error .unsupportedConversion

/-- The `zip` loop of `compare_values`: compares paired elements in order
(like Python's `zip`, it stops at the shorter list; `compare_values`
asserts equal lengths before calling it). -/
def compare_value_lists :
    List InterpValue → List IRValue → Except JitFailure Unit
  | [], _ => .ok ()
  | _ :: _, [] => .ok ()
  | iv :: ivRest, jv :: jvRest =>
      match compare_values iv jv with
      | .error err => .error err
      | .ok _ => compare_value_lists ivRest jvRest

end

mutual

/-- Structural size of an interpreter value: one unit per value node and
per list node, bounding the recursion depth of conversion/comparison. -/
def InterpValue.size : InterpValue → Nat
  | .bits _ _ _ => 1
  | .enum _ _ _ => 1
  | .array elements => 1 + InterpValue.sizeList elements
  | .tuple members => 1 + InterpValue.sizeList members
  | .other => 1

/-- Aggregate size of a list of interpreter values. -/
def InterpValue.sizeList : List InterpValue → Nat
  | [] => 0
  | e :: rest => 1 + InterpValue.size e + InterpValue.sizeList rest

end

mutual

/-- Fuel-indexed version of `convert_interpreter_value_to_ir`: spends one
unit of fuel per recursive call, returning `none` when the fuel runs out;
used to show the recursion is bounded by the structural size. -/
def convert_fuel : Nat → InterpValue → Option (Except JitFailure IRValue)
  | 0, _ => none
  | _ + 1, v@(.bits _ _ _) =>
      some (.ok (.bits (int_to_bits v.get_bits_value_check_sign v.get_bit_count)))
  | _ + 1, v@(.enum _ _ _) =>
      some (.ok (.bits (int_to_bits v.get_bits_value_check_sign v.get_bit_count)))
  | fuel + 1, .array elements =>
      match convert_list_fuel fuel elements with
      | none => none
      | some (.error err) => some (.error err)
      | some (.ok ir_arr) => some (.ok (.array ir_arr))
  | fuel + 1, .tuple members =>
      match convert_list_fuel fuel members with
      | none => none
      | some (.error err) => some (.error err)
      | some (.ok ir_tuple) => some (.ok (.tuple ir_tuple))
  | _ + 1, .other => some (.error .unsupportedConversion)

/-- Fuel-indexed version of `convert_value_list`. -/
def convert_list_fuel :
    Nat → List InterpValue → Option (Except JitFailure (List IRValue))
  | _, [] => some (.ok [])
  | 0, _ :: _ => none
  | fuel + 1, e :: rest =>
      match convert_fuel fuel e with
      | none => none
      | some (.error err) => some (.error err)
      | some (.ok ir) =>
          match convert_list_fuel fuel rest with
          | none => none
          | some (.error err) => some (.error err)
          | some (.ok irs) => some (.ok (ir :: irs))

end

mutual

/-- Fuel-indexed version of `compare_values`. -/
def compare_fuel : Nat → InterpValue → IRValue → Option (Except JitFailure Unit)
  | 0, _, _ => none
  | _ + 1, v@(.bits _ _ _), jit_value =>
      match jit_value with
      | .bits jb => some (compare_bits_values v jb)
      | _ => some (.error .equivalenceMismatch)
  | _ + 1, v@(.enum _ _ _), jit_value =>
      match jit_value with
      | .bits jb => some (compare_bits_values v jb)
      | _ => some (.error .equivalenceMismatch)
  | fuel + 1, .array elements, jit_value =>
      match jit_value with
      | .array jit_elements =>
          if elements.length = jit_elements.length then
            compare_list_fuel fuel elements jit_elements
          else some (.error .equivalenceMismatch)
      | _ => some (.error .equivalenceMismatch)
  | fuel + 1, .tuple members, jit_value =>
      match jit_value with
      | .tuple jit_elements =>
          if members.length = jit_elements.length then
            compare_list_fuel fuel members jit_elements
          else some (.error .equivalenceMismatch)
      | _ => some (.error .equivalenceMismatch)
  | _ + 1, .other, _ => some (.error .unsupportedConversion)

/-- Fuel-indexed version of `compare_value_lists`. -/
def compare_list_fuel :
    Nat → List InterpValue → List IRValue → Option (Except JitFailure Unit)
  | _, [], _ => some (.ok ())
  | _, _ :: _, [] => some (.ok ())
  | 0, _ :: _, _ :: _ => none
  | fuel + 1, iv :: ivRest, jv :: jvRest =>
      match compare_fuel fuel iv jv with
      | none => none
      | some (.error err) => some (.error err)
      | some (.ok _) => compare_list_fuel fuel ivRest jvRest

end

/-- Fuel-indexed version of the `get_bits` word loop. -/
def get_bits_loop_fuel (jit_bits : IRBits) :
    Nat → Nat → Nat → Option Nat
  | 0, word_number, bits_value =>
      if word_number * 64 < jit_bits.bit_count then none else some bits_value
  | fuel + 1, word_number, bits_value =>
      if word_number * 64 < jit_bits.bit_count then
        get_bits_loop_fuel jit_bits fuel (word_number + 1)
          ((jit_bits.word_to_uint word_number <<< (word_number * WORD_SIZE))
            ||| bits_value)
      else some bits_value


lemma shiftLeft_lor_eq_add {a : Nat} (b n : Nat) (ha : a < 2 ^ n) :
    (b <<< n) ||| a = 2 ^ n * b + a := by
  apply Nat.eq_of_testBit_eq
  intro j
  rw [Nat.testBit_or, Nat.testBit_shiftLeft, Nat.testBit_mul_pow_two_add b ha j]
  by_cases hj : j < n
  · have : ¬ (j ≥ n) := by omega
    simp [hj, this]
  · have hn : n ≤ j := by omega
    have hfalse : a.testBit j = false :=
      Nat.testBit_lt_two_pow (lt_of_lt_of_le ha (Nat.pow_le_pow_right (by norm_num) hn))
    simp [hj, hn, hfalse]

lemma word_to_uint_lt (b : IRBits) (hw : ∀ w ∈ b.words, w < 2 ^ 64)
    (i : Nat) : b.word_to_uint i < 2 ^ 64 := by
  unfold IRBits.word_to_uint
  rcases h : b.words[i]? with _ | a
  · simp [List.getD_eq_getElem?_getD, h]
  · have ha : a ∈ b.words := List.getElem?_mem h
    simpa [List.getD_eq_getElem?_getD, h] using hw a ha

lemma get_bits_loop_eq_sum (jit_bits : IRBits)
    (hw : ∀ i, jit_bits.word_to_uint i < 2 ^ 64)
    (wn acc : Nat) (hacc : acc < 2 ^ (64 * wn)) :
    get_bits_loop jit_bits wn acc =
      acc + ∑ i ∈ Finset.Ico wn (numWords jit_bits.bit_count),
        jit_bits.word_to_uint i * 2 ^ (64 * i) := by
  rw [get_bits_loop]
  by_cases h : wn * 64 < jit_bits.bit_count
  · rw [dif_pos h]
    have hshift : (jit_bits.word_to_uint wn <<< (wn * WORD_SIZE)) ||| acc =
        2 ^ (64 * wn) * jit_bits.word_to_uint wn + acc := by
      have := shiftLeft_lor_eq_add (a := acc) (jit_bits.word_to_uint wn) (64 * wn)
        (by simpa using hacc)
      simpa [WORD_SIZE, Nat.mul_comm wn 64] using this
    have hword := hw wn
    have hacc' : 2 ^ (64 * wn) * jit_bits.word_to_uint wn + acc <
        2 ^ (64 * (wn + 1)) := by
      have h1 : 2 ^ (64 * wn) * jit_bits.word_to_uint wn + acc <
          2 ^ (64 * wn) * (jit_bits.word_to_uint wn + 1) := by
        rw [Nat.mul_add, Nat.mul_one]
        omega
      have h2 : 2 ^ (64 * wn) * (jit_bits.word_to_uint wn + 1) ≤
          2 ^ (64 * wn) * 2 ^ 64 := by
        exact Nat.mul_le_mul_left _ (by omega)
      calc 2 ^ (64 * wn) * jit_bits.word_to_uint wn + acc
          < 2 ^ (64 * wn) * (jit_bits.word_to_uint wn + 1) := h1
        _ ≤ 2 ^ (64 * wn) * 2 ^ 64 := h2
        _ = 2 ^ (64 * (wn + 1)) := by rw [← pow_add]; ring_nf
    rw [hshift, get_bits_loop_eq_sum jit_bits hw (wn + 1) _ hacc']
    have hlt : wn < numWords jit_bits.bit_count := by
      simp only [numWords]
      omega
    rw [Finset.sum_eq_sum_Ico_succ_bot hlt]
    ring
  · rw [dif_neg h]
    have hempty : Finset.Ico wn (numWords jit_bits.bit_count) = ∅ := by
      apply Finset.Ico_eq_empty
      simp only [numWords]
      omega
    simp [hempty]
termination_by jit_bits.bit_count - wn * 64
decreasing_by omega

lemma get_bits_false_eq_sum (jit_bits : IRBits)
    (hw : ∀ w ∈ jit_bits.words, w < 2 ^ 64) :
    get_bits jit_bits false =
      ((∑ i ∈ Finset.range (numWords jit_bits.bit_count),
          jit_bits.words.getD i 0 * 2 ^ (64 * i) : Nat) : Int) := by
  unfold get_bits
  rw [get_bits_loop_eq_sum jit_bits (word_to_uint_lt jit_bits hw) 0 0 (by norm_num)]
  rw [Finset.range_eq_Ico]
  norm_num [IRBits.word_to_uint]

/-- C1: for every ordered sequence of 64-bit words and every `bit_count`,
`get_bits` with `signed = false` returns `Σ words[i] * 2^(64*i)` over all
indices `i` with `64*i < bit_count`; with `signed = true`, if bit
`bit_count - 1` of that unsigned value is set the result is the unsigned
value minus `2^bit_count`, otherwise the unsigned value unchanged. -/
theorem get_bits_words_spec (words : List Nat) (bit_count : Nat)
    (hw : ∀ w ∈ words, w < 2 ^ 64) :
    get_bits ⟨words, bit_count⟩ false =
      ((∑ i ∈ Finset.range (numWords bit_count),
          words.getD i 0 * 2 ^ (64 * i) : Nat) : Int) ∧
    (∀ u : Nat, get_bits ⟨words, bit_count⟩ false = (u : Int) →
       get_bits ⟨words, bit_count⟩ true =
         (if u.testBit (bit_count - 1) then (u : Int) - 2 ^ bit_count
          else (u : Int))) := by
  refine ⟨get_bits_false_eq_sum ⟨words, bit_count⟩ hw, ?_⟩
  intro u hu
  have hloop : get_bits_loop ⟨words, bit_count⟩ 0 0 = u := by
    have : ((get_bits_loop ⟨words, bit_count⟩ 0 0 : Nat) : Int) = (u : Int) := by
      simpa [get_bits] using hu
    exact_mod_cast this
  simp [get_bits, hloop, from_twos_complement]

/-- Witness for C1: the spec's multi-word example, a 128-bit unsigned value
with words `[0xFFFFFFFFFFFFFFFF, 0x0000000000000001]` decodes to
`2^65 - 1`. -/
theorem get_bits_words_spec_witness :
    get_bits ⟨[18446744073709551615, 1], 128⟩ false = 2 ^ 65 - 1 := by
  have h := (get_bits_words_spec [18446744073709551615, 1] 128
    (by decide)).1
  rw [h]
  decide

lemma testBit_true_of_ge_lt {u bit_count : Nat} (h1 : 2 ^ (bit_count - 1) ≤ u)
    (h2 : u < 2 ^ bit_count) (hbc : 1 ≤ bit_count) :
    u.testBit (bit_count - 1) = true := by
  rw [Nat.testBit_to_div_mod]
  have hdiv : u / 2 ^ (bit_count - 1) = 1 := by
    apply Nat.div_eq_of_lt_le (by simpa using h1)
    have : 2 ^ bit_count = 2 * 2 ^ (bit_count - 1) := by
      rw [← pow_succ']
      congr 1
      omega
    omega
  simp [hdiv]

lemma lt_two_pow_pred_of_testBit_false {u bit_count : Nat}
    (h2 : u < 2 ^ bit_count) (hbit : u.testBit (bit_count - 1) = false) :
    u < 2 ^ (bit_count - 1) := by
  rcases Nat.eq_zero_or_pos bit_count with h0 | hpos
  · subst h0
    simpa using h2
  · by_contra hge
    rw [testBit_true_of_ge_lt (by omega) h2 hpos] at hbit
    exact Bool.true_eq_false.mp hbit

lemma get_bits_loop_testBit_high (jit_bits : IRBits)
    (hmask : ∀ i j, jit_bits.bit_count ≤ i * 64 + j →
      (jit_bits.word_to_uint i).testBit j = false)
    (wn acc : Nat)
    (hacc : ∀ p, jit_bits.bit_count ≤ p → acc.testBit p = false) :
    ∀ p, jit_bits.bit_count ≤ p →
      (get_bits_loop jit_bits wn acc).testBit p = false := by
  rw [get_bits_loop]
  by_cases h : wn * 64 < jit_bits.bit_count
  · rw [dif_pos h]
    apply get_bits_loop_testBit_high jit_bits hmask (wn + 1)
    intro p hp
    rw [Nat.testBit_or, Nat.testBit_shiftLeft]
    have hworth : (jit_bits.word_to_uint wn).testBit (p - wn * WORD_SIZE) = false := by
      by_cases hge : wn * WORD_SIZE ≤ p
      · exact hmask wn (p - wn * WORD_SIZE) (by simp only [WORD_SIZE] at hge ⊢; omega)
      · exact hmask wn (p - wn * WORD_SIZE)
          (by simp only [WORD_SIZE] at hge ⊢; omega)
    rw [hworth, hacc p hp]
    simp
  · rw [dif_neg h]
    exact hacc
termination_by jit_bits.bit_count - wn * 64
decreasing_by omega

lemma get_bits_loop_lt (jit_bits : IRBits)
    (hmask : ∀ i j, jit_bits.bit_count ≤ i * 64 + j →
      (jit_bits.word_to_uint i).testBit j = false) :
    get_bits_loop jit_bits 0 0 < 2 ^ jit_bits.bit_count := by
  apply Nat.lt_pow_two_of_testBit
  intro p hp
  exact get_bits_loop_testBit_high jit_bits hmask 0 0 (by simp) p hp

/-- C10: `get_bits` with `signed = false` always returns a nonnegative
integer; and when every word bit at a position at or above `bit_count` is
zero, the unsigned result is below `2^bit_count` and the signed result
lies in `[-2^(bit_count-1), 2^(bit_count-1))`. -/
theorem get_bits_range_spec (words : List Nat) (bit_count : Nat) :
    0 ≤ get_bits ⟨words, bit_count⟩ false ∧
    ((∀ i j, bit_count ≤ 64 * i + j → (words.getD i 0).testBit j = false) →
      get_bits ⟨words, bit_count⟩ false < 2 ^ bit_count ∧
      -((2 : Int) ^ (bit_count - 1)) ≤ get_bits ⟨words, bit_count⟩ true ∧
      get_bits ⟨words, bit_count⟩ true < 2 ^ (bit_count - 1)) := by
  constructor
  · simp [get_bits]
  · intro hmask
    have hmask' : ∀ i j, (⟨words, bit_count⟩ : IRBits).bit_count ≤ i * 64 + j →
        ((⟨words, bit_count⟩ : IRBits).word_to_uint i).testBit j = false := by
      intro i j hij
      have hij2 : bit_count ≤ i * 64 + j := hij
      exact hmask i j (by omega)
    have hu : get_bits_loop (⟨words, bit_count⟩ : IRBits) 0 0 < 2 ^ bit_count :=
      get_bits_loop_lt ⟨words, bit_count⟩ hmask'
    set u := get_bits_loop (⟨words, bit_count⟩ : IRBits) 0 0 with hu_def
    have hfalse : get_bits ⟨words, bit_count⟩ false = (u : Int) := by
      simp [get_bits, hu_def]
    have htrue : get_bits ⟨words, bit_count⟩ true =
        from_twos_complement u bit_count := by
      simp [get_bits, hu_def]
    have huZ : (u : Int) < 2 ^ bit_count := by exact_mod_cast hu
    refine ⟨by rw [hfalse]; exact huZ, ?_, ?_⟩
    · rw [htrue, from_twos_complement]
      by_cases hbit : u.testBit (bit_count - 1)
      · rw [if_pos hbit]
        rcases Nat.eq_zero_or_pos bit_count with h0 | hpos
        · subst h0
          have hu0 : u = 0 := by
            have : u < 1 := by simpa using hu
            omega
          rw [hu0] at hbit
          simp at hbit
        · have hge : (2 : Nat) ^ (bit_count - 1) ≤ u := Nat.testBit_implies_ge hbit
          have hgeZ : (2 : Int) ^ (bit_count - 1) ≤ (u : Int) := by exact_mod_cast hge
          have hsplitZ : (2 : Int) ^ bit_count = 2 * 2 ^ (bit_count - 1) := by
            rw [← pow_succ']
            congr 1
            omega
          rw [hsplitZ]
          omega
      · rw [if_neg hbit]
        have h0 : (0 : Int) ≤ (u : Int) := by positivity
        have hp : (0 : Int) < 2 ^ (bit_count - 1) := by positivity
        omega
    · rw [htrue, from_twos_complement]
      by_cases hbit : u.testBit (bit_count - 1)
      · rw [if_pos hbit]
        have hp : (0 : Int) < 2 ^ (bit_count - 1) := by positivity
        omega
      · rw [if_neg hbit]
        have := lt_two_pow_pred_of_testBit_false hu (by simpa using hbit)
        exact_mod_cast this

/-- Witness for C10: the bounds at the concrete signed 8-bit pattern
`0x80`, whose decode is `-128`. -/
theorem get_bits_range_spec_witness :
    get_bits ⟨[128], 8⟩ false < 2 ^ 8 ∧
    -((2 : Int) ^ 7) ≤ get_bits ⟨[128], 8⟩ true ∧
    get_bits ⟨[128], 8⟩ true < 2 ^ 7 :=
  (get_bits_range_spec [128] 8).2 (by
    intro i j hij
    match i with
    | 0 =>
      apply Nat.testBit_lt_two_pow
      have h8 : 8 ≤ j := by omega
      calc (128 : Nat) < 2 ^ 8 := by norm_num
        _ ≤ 2 ^ j := Nat.pow_le_pow_right (by norm_num) h8
    | n + 1 =>
      simp [List.getD])

lemma get_bits_loop_eq_sum0 (b : IRBits) (hw : ∀ w ∈ b.words, w < 2 ^ 64) :
    get_bits_loop b 0 0 =
      ∑ i ∈ Finset.range (numWords b.bit_count),
        b.words.getD i 0 * 2 ^ (64 * i) := by
  rw [get_bits_loop_eq_sum b (word_to_uint_lt b hw) 0 0 (by norm_num)]
  rw [Finset.range_eq_Ico]
  norm_num [IRBits.word_to_uint]

lemma from_twos_complement_emod (v : Int) (bit_count : Nat) (hbc : 1 ≤ bit_count)
    (hlo : -((2 : Int) ^ (bit_count - 1)) ≤ v) (hhi : v < 2 ^ (bit_count - 1)) :
    from_twos_complement (v % ((2 : Int) ^ bit_count)).toNat bit_count = v := by
  have hsplitZ : (2 : Int) ^ bit_count = 2 * 2 ^ (bit_count - 1) := by
    rw [← pow_succ']
    congr 1
    omega
  have hhalf : (0 : Int) < 2 ^ (bit_count - 1) := by positivity
  rcases le_or_lt 0 v with hv0 | hv0
  · have hmod : v % ((2 : Int) ^ bit_count) = v :=
      Int.emod_eq_of_lt hv0 (by omega)
    rw [hmod, from_twos_complement]
    have hvN : (v.toNat : Int) = v := Int.toNat_of_nonneg hv0
    have hlt : v.toNat < 2 ^ (bit_count - 1) := by
      have : (v.toNat : Int) < ((2 ^ (bit_count - 1) : Nat) : Int) := by
        push_cast
        omega
      exact_mod_cast this
    rw [Nat.testBit_lt_two_pow hlt]
    simp [hvN]
  · have hmod : v % ((2 : Int) ^ bit_count) = v + 2 ^ bit_count := by
      have h1 : (v + 2 ^ bit_count) % ((2 : Int) ^ bit_count) = v % 2 ^ bit_count := by
        simpa using Int.add_mul_emod_self_left (a := v) (b := (2 : Int) ^ bit_count) (c := 1)
      have h2 : (v + 2 ^ bit_count) % ((2 : Int) ^ bit_count) = v + 2 ^ bit_count :=
        Int.emod_eq_of_lt (by omega) (by omega)
      omega
    rw [hmod, from_twos_complement]
    have hnn : (0 : Int) ≤ v + 2 ^ bit_count := by omega
    have hcast : ((v + 2 ^ bit_count).toNat : Int) = v + 2 ^ bit_count :=
      Int.toNat_of_nonneg hnn
    have hgeN : 2 ^ (bit_count - 1) ≤ (v + 2 ^ bit_count).toNat := by
      have : ((2 ^ (bit_count - 1) : Nat) : Int) ≤ ((v + 2 ^ bit_count).toNat : Int) := by
        push_cast
        omega
      exact_mod_cast this
    have hltN : (v + 2 ^ bit_count).toNat < 2 ^ bit_count := by
      have : ((v + 2 ^ bit_count).toNat : Int) < ((2 ^ bit_count : Nat) : Int) := by
        push_cast
        omega
      exact_mod_cast this
    rw [testBit_true_of_ge_lt hgeN hltN hbc]
    simp only [if_true]
    omega

lemma natToWords_lt (k p : Nat) : ∀ w ∈ natToWords k p, w < 2 ^ 64 := by
  induction k generalizing p with
  | zero => simp [natToWords]
  | succ n ih =>
    intro w hmem
    rw [natToWords] at hmem
    rcases List.mem_cons.mp hmem with rfl | hmem
    · exact Nat.mod_lt _ (by norm_num)
    · exact ih _ w hmem

lemma natToWords_sum (k p : Nat) (hp : p < 2 ^ (64 * k)) :
    ∑ i ∈ Finset.range k, (natToWords k p).getD i 0 * 2 ^ (64 * i) = p := by
  induction k generalizing p with
  | zero =>
    simp only [Nat.mul_zero, pow_zero] at hp
    simp
    omega
  | succ n ih =>
    rw [Finset.sum_range_succ']
    have hcons : natToWords (n + 1) p = p % 2 ^ 64 :: natToWords n (p / 2 ^ 64) := by
      rw [natToWords]
    rw [hcons]
    simp only [List.getD_cons_zero, List.getD_cons_succ]
    have hdiv : p / 2 ^ 64 < 2 ^ (64 * n) := by
      rw [Nat.div_lt_iff_lt_mul (by norm_num : 0 < 2 ^ 64)]
      calc p < 2 ^ (64 * (n + 1)) := hp
        _ = 2 ^ (64 * n) * 2 ^ 64 := by rw [← pow_add]; ring_nf
    have hsum : ∑ i ∈ Finset.range n,
        (natToWords n (p / 2 ^ 64)).getD i 0 * 2 ^ (64 * (i + 1)) =
        (∑ i ∈ Finset.range n,
          (natToWords n (p / 2 ^ 64)).getD i 0 * 2 ^ (64 * i)) * 2 ^ 64 := by
      rw [Finset.sum_mul]
      apply Finset.sum_congr rfl
      intro i _
      rw [Nat.mul_assoc, ← pow_add]
      congr 2
    rw [hsum, ih _ hdiv]
    simp only [Nat.mul_zero, pow_zero, Nat.mul_one]
    omega

lemma int_to_bits_bit_count (v : Int) (w : Nat) :
    (int_to_bits v w).bit_count = w := by
  unfold int_to_bits UBits SBits bits_from_twos_complement_hex
  split_ifs <;> rfl

lemma get_bits_loop_int_to_bits (v : Int) (w : Nat)
    (hlo : -((2 : Int) ^ w) ≤ v) (hhi : v < 2 ^ w) :
    get_bits_loop (int_to_bits v w) 0 0 = (v % ((2 : Int) ^ w)).toNat := by
  have hPpos : (0 : Int) < 2 ^ w := by positivity
  have hmod_lo : (0 : Int) ≤ v % 2 ^ w := Int.emod_nonneg v (by omega)
  have hmod_hi : v % 2 ^ w < 2 ^ w := Int.emod_lt_of_pos v hPpos
  have hpN : (v % ((2 : Int) ^ w)).toNat < 2 ^ w := by
    have : ((v % ((2 : Int) ^ w)).toNat : Int) < ((2 ^ w : Nat) : Int) := by
      push_cast
      omega
    exact_mod_cast this
  unfold int_to_bits
  by_cases hw64 : w ≤ WORD_SIZE
  · have hmod : v % ((2 : Int) ^ w) = if 0 ≤ v then v else v + 2 ^ w := by
      split_ifs with hv0
      · exact Int.emod_eq_of_lt hv0 hhi
      · have h1 : (v + 2 ^ w) % ((2 : Int) ^ w) = v % 2 ^ w := by
          simpa using Int.add_mul_emod_self_left (a := v) (b := (2 : Int) ^ w) (c := 1)
        have h2 : (v + 2 ^ w) % ((2 : Int) ^ w) = v + 2 ^ w :=
          Int.emod_eq_of_lt (by omega) (by omega)
        omega
    rw [if_pos hw64]
    simp only [WORD_SIZE] at hw64
    split_ifs with hv0
    · have hword : v.toNat < 2 ^ 64 := by
        have h2w : (2 : Nat) ^ w ≤ 2 ^ 64 := Nat.pow_le_pow_right (by norm_num) hw64
        have : v.toNat < 2 ^ w := by
          have : (v.toNat : Int) < ((2 ^ w : Nat) : Int) := by
            push_cast
            omega
          exact_mod_cast this
        omega
      rw [get_bits_loop_eq_sum0 (UBits v.toNat w) (by
        intro x hx
        simp only [UBits, List.mem_singleton] at hx
        omega)]
      have : (v % ((2 : Int) ^ w)).toNat = v.toNat := by rw [hmod, if_pos hv0]
      rw [this]
      rcases Nat.eq_zero_or_pos w with rfl | hw1
      · have : v = 0 := by omega
        simp [this, UBits, numWords]
      · have hnw : numWords w = 1 := by
          simp only [numWords]
          omega
        simp [UBits, hnw, Finset.sum_range_succ]
    · have hword : (v % ((2 : Int) ^ w)).toNat < 2 ^ 64 := by
        have h2w : (2 : Nat) ^ w ≤ 2 ^ 64 := Nat.pow_le_pow_right (by norm_num) hw64
        omega
      rw [get_bits_loop_eq_sum0 (SBits v w) (by
        intro x hx
        simp only [SBits, List.mem_singleton] at hx
        omega)]
      rcases Nat.eq_zero_or_pos w with rfl | hw1
      · have hv : v = -1 := by omega
        simp [hv, SBits, numWords]
      · have hnw : numWords w = 1 := by
          simp only [numWords]
          omega
        simp [SBits, hnw, Finset.sum_range_succ]
  · rw [if_neg hw64]
    simp only [WORD_SIZE] at hw64
    rw [get_bits_loop_eq_sum0 (bits_from_twos_complement_hex v w)
      (natToWords_lt _ _)]
    have hple : (2 : Nat) ^ w ≤ 2 ^ (64 * numWords w) := by
      apply Nat.pow_le_pow_right (by norm_num)
      simp only [numWords]
      omega
    exact natToWords_sum (numWords w) _ (by omega)

lemma get_bits_int_to_bits_false (v : Int) (w : Nat)
    (h0 : 0 ≤ v) (hhi : v < 2 ^ w) :
    get_bits (int_to_bits v w) false = v := by
  have hP : (0 : Int) < 2 ^ w := by positivity
  have hloop := get_bits_loop_int_to_bits v w (by omega) hhi
  have hmod : v % ((2 : Int) ^ w) = v := Int.emod_eq_of_lt h0 hhi
  simp only [get_bits, Bool.not_false, if_true, hloop, hmod]
  exact Int.toNat_of_nonneg h0

lemma get_bits_int_to_bits_true (v : Int) (w : Nat) (hw1 : 1 ≤ w)
    (hlo : -((2 : Int) ^ (w - 1)) ≤ v) (hhi : v < 2 ^ (w - 1)) :
    get_bits (int_to_bits v w) true = v := by
  have hhalf_le : (2 : Int) ^ (w - 1) ≤ 2 ^ w :=
    pow_le_pow_right₀ (by norm_num) (by omega)
  have hloop := get_bits_loop_int_to_bits v w (by omega) (by omega)
  simp only [get_bits, Bool.not_true, if_false, hloop, int_to_bits_bit_count]
  exact from_twos_complement_emod v w hw1 hlo hhi

/-- C2: for every bit width `w` in `{1, 7, 8, 64, 65, 128, 256}` and every
integer `v` representable in `w` bits (unsigned or signed two's-complement
respectively), encoding with `int_to_bits` and decoding the resulting
native Bits value with `get_bits` at the matching signedness returns `v`. -/
theorem int_to_bits_roundtrip_spec (w : Nat)
    (hw : w ∈ [1, 7, 8, 64, 65, 128, 256]) (v : Int) :
    (0 ≤ v → v < 2 ^ w → get_bits (int_to_bits v w) false = v) ∧
    (-((2 : Int) ^ (w - 1)) ≤ v → v < 2 ^ (w - 1) →
      get_bits (int_to_bits v w) true = v) := by
  have hw1 : 1 ≤ w := by
    simp only [List.mem_cons, List.not_mem_nil, or_false] at hw
    rcases hw with rfl | rfl | rfl | rfl | rfl | rfl | rfl <;> norm_num
  exact ⟨fun h0 hhi => get_bits_int_to_bits_false v w h0 hhi,
         fun hlo hhi => get_bits_int_to_bits_true v w hw1 hlo hhi⟩

/-- Witness for C2: at width 8, unsigned 255 and signed -128 both
round-trip. -/
theorem int_to_bits_roundtrip_spec_witness :
    get_bits (int_to_bits 255 8) false = 255 ∧
    get_bits (int_to_bits (-128) 8) true = -128 :=
  ⟨(int_to_bits_roundtrip_spec 8 (by norm_num) 255).1 (by norm_num) (by norm_num),
   (int_to_bits_roundtrip_spec 8 (by norm_num) (-128)).2 (by norm_num) (by norm_num)⟩

lemma get_bits_loop_single (x bc : Nat) (hx : x < 2 ^ 64)
    (h1 : 1 ≤ bc) (h64 : bc ≤ 64) :
    get_bits_loop ⟨[x], bc⟩ 0 0 = x := by
  rw [get_bits_loop_eq_sum0 ⟨[x], bc⟩ (by simpa using hx)]
  have hnw : numWords bc = 1 := by
    simp only [numWords]
    omega
  simp [hnw, Finset.sum_range_succ]

lemma get_bits_single_true (x bc : Nat) (hx : x < 2 ^ 64)
    (h1 : 1 ≤ bc) (h64 : bc ≤ 64) :
    get_bits ⟨[x], bc⟩ true = from_twos_complement x bc := by
  simp [get_bits, get_bits_loop_single x bc hx h1 h64]

lemma get_bits_single_false (x bc : Nat) (hx : x < 2 ^ 64)
    (h1 : 1 ≤ bc) (h64 : bc ≤ 64) :
    get_bits ⟨[x], bc⟩ false = (x : Int) := by
  simp [get_bits, get_bits_loop_single x bc hx h1 h64]

/-- C3: `compare_values` on a `Bits` or `Enum` interpreter value against a
native `Bits` value requires equal bit counts, then exact integer equality
between the interpreter side's value read with its own declared signedness
and the native side decoded by `get_bits` with the same flag; a signed
8-bit pattern `0xFF` compares equal to `-1` (not 255), `0x80` to `-128`,
and `0x7F` to `127`. -/
theorem compare_values_bits_spec (signed : Bool) (bit_count value : Nat)
    (jb : IRBits) :
    (compare_values (.bits signed bit_count value) (.bits jb) = .ok () ↔
       bit_count = jb.bit_count ∧
         (if (InterpValue.bits signed bit_count value).is_ubits
          then ((InterpValue.bits signed bit_count value).get_bits_value : Int) =
                 get_bits jb false
          else (InterpValue.bits signed bit_count value).get_bits_value_signed =
                 get_bits jb true)) ∧
    (compare_values (.enum signed bit_count value) (.bits jb) = .ok () ↔
       bit_count = jb.bit_count ∧
         (InterpValue.enum signed bit_count value).get_bits_value_signed =
           get_bits jb true) ∧
    (jb.bit_count = 8 →
       ((compare_values (.bits true 8 255) (.bits jb) = .ok () ↔
           get_bits jb true = -1) ∧
        (compare_values (.bits true 8 128) (.bits jb) = .ok () ↔
           get_bits jb true = -128) ∧
        (compare_values (.bits true 8 127) (.bits jb) = .ok () ↔
           get_bits jb true = 127))) := by
  refine ⟨?_, ?_, ?_⟩
  · show compare_bits_values (.bits signed bit_count value) jb = .ok () ↔ _
    unfold compare_bits_values
    cases signed <;>
      simp only [InterpValue.get_bit_count, InterpValue.is_ubits,
        InterpValue.get_bits_value, InterpValue.get_bits_value_signed,
        Bool.not_true, Bool.not_false, if_true, if_false] <;>
      split_ifs <;> simp_all
  · show compare_bits_values (.enum signed bit_count value) jb = .ok () ↔ _
    unfold compare_bits_values
    simp only [InterpValue.get_bit_count, InterpValue.is_ubits,
      InterpValue.get_bits_value_signed]
    split_ifs <;> simp_all
  · intro h8
    have h255 : from_twos_complement 255 8 = -1 := by decide
    have h128 : from_twos_complement 128 8 = -128 := by decide
    have h127 : from_twos_complement 127 8 = 127 := by decide
    refine ⟨?_, ?_, ?_⟩
    · show compare_bits_values _ jb = .ok () ↔ _
      unfold compare_bits_values
      simp only [InterpValue.get_bit_count, InterpValue.is_ubits,
        InterpValue.get_bits_value_signed, h8, h255, Bool.not_true,
        Bool.false_eq_true, if_false, eq_self_iff_true, if_true]
      split_ifs with hbit
      · exact iff_of_true rfl hbit.symm
      · exact iff_of_false (by simp) (fun h => hbit h.symm)
    · show compare_bits_values _ jb = .ok () ↔ _
      unfold compare_bits_values
      simp only [InterpValue.get_bit_count, InterpValue.is_ubits,
        InterpValue.get_bits_value_signed, h8, h128, Bool.not_true,
        Bool.false_eq_true, if_false, eq_self_iff_true, if_true]
      split_ifs with hbit
      · exact iff_of_true rfl hbit.symm
      · exact iff_of_false (by simp) (fun h => hbit h.symm)
    · show compare_bits_values _ jb = .ok () ↔ _
      unfold compare_bits_values
      simp only [InterpValue.get_bit_count, InterpValue.is_ubits,
        InterpValue.get_bits_value_signed, h8, h127, Bool.not_true,
        Bool.false_eq_true, if_false, eq_self_iff_true, if_true]
      split_ifs with hbit
      · exact iff_of_true rfl hbit.symm
      · exact iff_of_false (by simp) (fun h => hbit h.symm)

/-- Witness for C3: the signed 8-bit pattern `0xFF` compares equal to the
native single-word value `[0xFF]` of width 8 (which decodes to `-1`). -/
theorem compare_values_bits_spec_witness :
    compare_values (.bits true 8 255) (.bits ⟨[255], 8⟩) = .ok () := by
  refine ((compare_values_bits_spec true 8 255 ⟨[255], 8⟩).2.2 rfl).1.mpr ?_
  rw [get_bits_single_true 255 8 (by norm_num) (by norm_num) (by norm_num)]
  decide

lemma natToWords_length (k p : Nat) : (natToWords k p).length = k := by
  induction k generalizing p with
  | zero => simp [natToWords]
  | succ n ih => simp [natToWords, ih]

/-- C4: `int_to_bits` keeps the declared width; for `bit_count ≤ 64` it
produces the single-word value from the unsigned constructor when
`value ≥ 0` and from the signed (two's-complement) constructor when
`value < 0`; for `bit_count > 64` it produces the multi-word value (one
word per 64 bits of the declared width) holding the exact two's-complement
pattern of `value` at that width. -/
theorem int_to_bits_spec (value : Int) (bit_count : Nat) :
    (int_to_bits value bit_count).bit_count = bit_count ∧
    (bit_count ≤ 64 → 0 ≤ value →
       int_to_bits value bit_count = UBits value.toNat bit_count ∧
       (int_to_bits value bit_count).words = [value.toNat]) ∧
    (bit_count ≤ 64 → value < 0 →
       int_to_bits value bit_count = SBits value bit_count ∧
       (int_to_bits value bit_count).words =
         [(value % ((2 : Int) ^ bit_count)).toNat]) ∧
    (64 < bit_count →
       (int_to_bits value bit_count).words =
         natToWords (numWords bit_count)
           ((value % ((2 : Int) ^ bit_count)).toNat) ∧
       (int_to_bits value bit_count).words.length = numWords bit_count) := by
  refine ⟨int_to_bits_bit_count value bit_count, ?_, ?_, ?_⟩
  · intro h64 h0
    rw [int_to_bits, if_pos (by simpa [WORD_SIZE] using h64), if_pos h0]
    exact ⟨rfl, rfl⟩
  · intro h64 hneg
    rw [int_to_bits, if_pos (by simpa [WORD_SIZE] using h64), if_neg (by omega)]
    exact ⟨rfl, rfl⟩
  · intro h64
    rw [int_to_bits, if_neg (by simp only [WORD_SIZE]; omega)]
    exact ⟨rfl, natToWords_length _ _⟩

/-- Witness for C4: encoding `-1` at width 8 yields the single word
`[0xFF]`, and at width 65 yields two words. -/
theorem int_to_bits_spec_witness :
    (int_to_bits (-1) 8).words = [255] ∧
    (int_to_bits (-1) 65).words.length = 2 := by
  constructor
  · have h := ((int_to_bits_spec (-1) 8).2.2.1 (by norm_num) (by norm_num)).2
    rw [h]
    decide
  · have h := ((int_to_bits_spec (-1) 65).2.2.2 (by norm_num)).2
    rw [h]
    decide

/-- C5: an interpreter value whose variant is none of Bits/Enum/Array/Tuple
raises `UnsupportedConversion` on both the converter and the comparator
paths, and neither raises any other error type on such an input. -/
theorem unsupported_variant_spec (jit_value : IRValue) :
    convert_interpreter_value_to_ir .other = .error .unsupportedConversion ∧
    compare_values .other jit_value = .error .unsupportedConversion :=
  ⟨rfl, rfl⟩

lemma compare_value_lists_ok_iff (ivs : List InterpValue) (jvs : List IRValue) :
    compare_value_lists ivs jvs = .ok () ↔
      ∀ p ∈ ivs.zip jvs, compare_values p.1 p.2 = .ok () := by
  induction ivs generalizing jvs with
  | nil => simp [compare_value_lists]
  | cons a rest ih =>
    cases jvs with
    | nil => simp [compare_value_lists]
    | cons b jrest =>
      rw [compare_value_lists]
      rcases h : compare_values a b with e | u
      · simp [List.zip_cons_cons, h]
      · cases u
        simp [List.zip_cons_cons, h, ih jrest]

/-- C6: comparing an interpreter Array (or Tuple) against a native Array
(or Tuple) of a different element count fails with an equivalence
mismatch, never truncating; with equal counts the comparison is exactly
the pairwise recursive comparison of the elements in order. -/
theorem compare_arity_spec (ivs : List InterpValue) (jvs : List IRValue) :
    (ivs.length ≠ jvs.length →
       compare_values (.array ivs) (.array jvs) = .error .equivalenceMismatch ∧
       compare_values (.tuple ivs) (.tuple jvs) = .error .equivalenceMismatch) ∧
    (ivs.length = jvs.length →
       compare_values (.array ivs) (.array jvs) = compare_value_lists ivs jvs ∧
       compare_values (.tuple ivs) (.tuple jvs) = compare_value_lists ivs jvs ∧
       (compare_value_lists ivs jvs = .ok () ↔
         ∀ p ∈ ivs.zip jvs, compare_values p.1 p.2 = .ok ())) := by
  constructor
  · intro h
    constructor <;> rw [compare_values, if_neg h]
  · intro h
    exact ⟨by rw [compare_values, if_pos h], by rw [compare_values, if_pos h],
      compare_value_lists_ok_iff ivs jvs⟩

/-- Witness for C6: the spec's example, an interpreter Array of length 3
against a native Array of length 2, fails with an equivalence mismatch. -/
theorem compare_arity_spec_witness :
    compare_values
      (.array [.bits false 1 0, .bits false 1 0, .bits false 1 0])
      (.array [.bits ⟨[0], 1⟩, .bits ⟨[0], 1⟩]) =
      .error .equivalenceMismatch :=
  ((compare_arity_spec
      [.bits false 1 0, .bits false 1 0, .bits false 1 0]
      [.bits ⟨[0], 1⟩, .bits ⟨[0], 1⟩]).1 (by norm_num)).1

lemma convert_value_list_spec (elems : List InterpValue) (irs : List IRValue)
    (h : convert_value_list elems = .ok irs) :
    irs.length = elems.length ∧
    ∀ i, i < elems.length →
      convert_interpreter_value_to_ir (elems.getD i .other) =
        .ok (irs.getD i (.tuple [])) := by
  induction elems generalizing irs with
  | nil =>
    rw [convert_value_list] at h
    cases h
    simp
  | cons e rest ih =>
    rw [convert_value_list] at h
    rcases he : convert_interpreter_value_to_ir e with err | ire <;> rw [he] at h
    · cases h
    · rcases hr : convert_value_list rest with err | irRest <;> rw [hr] at h
      · cases h
      · cases h
        obtain ⟨hlen, helem⟩ := ih irRest hr
        refine ⟨by simp [hlen], ?_⟩
        intro i hi
        match i with
        | 0 => simpa using he
        | n + 1 =>
          simp only [List.getD_cons_succ]
          exact helem n (by simpa using hi)

/-- C7: the converter preserves structure, order and arity: an Array
converts element-by-element in order into a native Array (the empty Array
to the empty native Array), a Tuple member-by-member in order into a
native Tuple, and `convert_args_to_ir` returns the individually converted
values, with the same length and in the same order. -/
theorem converter_structure_spec :
    convert_interpreter_value_to_ir (.array []) = .ok (.array []) ∧
    (∀ elems irs, convert_value_list elems = .ok irs →
       convert_interpreter_value_to_ir (.array elems) = .ok (.array irs) ∧
       convert_interpreter_value_to_ir (.tuple elems) = .ok (.tuple irs) ∧
       irs.length = elems.length ∧
       (∀ i, i < elems.length →
          convert_interpreter_value_to_ir (elems.getD i .other) =
            .ok (irs.getD i (.tuple [])))) ∧
    (∀ args irs, convert_args_to_ir args = .ok irs →
       irs.length = args.length ∧
       (∀ i, i < args.length →
          convert_interpreter_value_to_ir (args.getD i .other) =
            .ok (irs.getD i (.tuple [])))) := by
  refine ⟨rfl, ?_, ?_⟩
  · intro elems irs h
    obtain ⟨hlen, helem⟩ := convert_value_list_spec elems irs h
    refine ⟨?_, ?_, hlen, helem⟩
    · rw [convert_interpreter_value_to_ir, h]
    · rw [convert_interpreter_value_to_ir, h]
  · intro args irs h
    exact convert_value_list_spec args irs h

/-- Witness for C7: a one-element Array converts to the one-element native
Array of the converted element. -/
theorem converter_structure_spec_witness :
    convert_interpreter_value_to_ir (.array [.bits false 4 3]) =
      .ok (.array [.bits ⟨[3], 4⟩]) :=
  (converter_structure_spec.2.1 [.bits false 4 3] [.bits ⟨[3], 4⟩] rfl).1

lemma InterpValue.size_pos (v : InterpValue) : 1 ≤ v.size := by
  cases v <;> simp only [InterpValue.size] <;> omega

lemma convert_fuel_adequate :
    ∀ f, (∀ v : InterpValue, v.size ≤ f →
            convert_fuel f v = some (convert_interpreter_value_to_ir v)) ∧
         (∀ l : List InterpValue, InterpValue.sizeList l ≤ f →
            convert_list_fuel f l = some (convert_value_list l)) := by
  intro f
  induction f with
  | zero =>
    constructor
    · intro v hv
      have := InterpValue.size_pos v
      omega
    · intro l hl
      cases l with
      | nil => rfl
      | cons e rest =>
        simp only [InterpValue.sizeList] at hl
        omega
  | succ f ih =>
    constructor
    · intro v hv
      cases v with
      | bits signed bit_count value => rfl
      | enum signed bit_count value => rfl
      | other => rfl
      | array elements =>
        have hl := ih.2 elements (by
          simp only [InterpValue.size] at hv
          omega)
        rw [convert_fuel, hl, convert_interpreter_value_to_ir]
        rcases hcase : convert_value_list elements with err | irs <;> rfl
      | tuple members =>
        have hl := ih.2 members (by
          simp only [InterpValue.size] at hv
          omega)
        rw [convert_fuel, hl, convert_interpreter_value_to_ir]
        rcases hcase : convert_value_list members with err | irs <;> rfl
    · intro l hl
      cases l with
      | nil => rfl
      | cons e rest =>
        simp only [InterpValue.sizeList] at hl
        have he := ih.1 e (by omega)
        have hr := ih.2 rest (by omega)
        rw [convert_list_fuel, he, convert_value_list]
        rcases hcase : convert_interpreter_value_to_ir e with err | ir
        · rfl
        · rw [hr]
          rcases hcase2 : convert_value_list rest with err | irs <;> rfl

lemma compare_fuel_adequate :
    ∀ f, (∀ (v : InterpValue) (jv : IRValue), v.size ≤ f →
            compare_fuel f v jv = some (compare_values v jv)) ∧
         (∀ (l : List InterpValue) (jl : List IRValue),
            InterpValue.sizeList l ≤ f →
            compare_list_fuel f l jl = some (compare_value_lists l jl)) := by
  intro f
  induction f with
  | zero =>
    constructor
    · intro v jv hv
      have := InterpValue.size_pos v
      omega
    · intro l jl hl
      cases l with
      | nil => rfl
      | cons e rest =>
        cases jl with
        | nil => rfl
        | cons b jrest =>
          simp only [InterpValue.sizeList] at hl
          omega
  | succ f ih =>
    constructor
    · intro v jv hv
      cases v with
      | bits signed bit_count value => cases jv <;> rfl
      | enum signed bit_count value => cases jv <;> rfl
      | other => rfl
      | array elements =>
        cases jv with
        | bits jb => rfl
        | tuple jels => rfl
        | array jels =>
          have hl := ih.2 elements jels (by
            simp only [InterpValue.size] at hv
            omega)
          rw [compare_fuel, compare_values]
          by_cases hlen : elements.length = jels.length
          · rw [if_pos hlen, if_pos hlen, hl]
          · rw [if_neg hlen, if_neg hlen]
      | tuple members =>
        cases jv with
        | bits jb => rfl
        | array jels => rfl
        | tuple jels =>
          have hl := ih.2 members jels (by
            simp only [InterpValue.size] at hv
            omega)
          rw [compare_fuel, compare_values]
          by_cases hlen : members.length = jels.length
          · rw [if_pos hlen, if_pos hlen, hl]
          · rw [if_neg hlen, if_neg hlen]
    · intro l jl hl
      cases l with
      | nil => rfl
      | cons e rest =>
        cases jl with
        | nil => rfl
        | cons b jrest =>
          simp only [InterpValue.sizeList] at hl
          have he := ih.1 e b (by omega)
          have hr := ih.2 rest jrest (by omega)
          rw [compare_list_fuel, he, compare_value_lists]
          rcases hcase : compare_values e b with err | u
          · rfl
          · exact hr

lemma get_bits_loop_fuel_adequate (jit_bits : IRBits) :
    ∀ fuel word_number bits_value,
      numWords jit_bits.bit_count - word_number ≤ fuel →
      get_bits_loop_fuel jit_bits fuel word_number bits_value =
        some (get_bits_loop jit_bits word_number bits_value) := by
  intro fuel
  induction fuel with
  | zero =>
    intro wn acc h
    have hge : ¬ (wn * 64 < jit_bits.bit_count) := by
      simp only [numWords] at h
      omega
    rw [get_bits_loop_fuel, if_neg hge, get_bits_loop, dif_neg hge]
  | succ f ihf =>
    intro wn acc h
    by_cases hlt : wn * 64 < jit_bits.bit_count
    · rw [get_bits_loop_fuel, if_pos hlt, get_bits_loop, dif_pos hlt]
      apply ihf
      simp only [numWords] at h ⊢
      omega
    · rw [get_bits_loop_fuel, if_neg hlt, get_bits_loop, dif_neg hlt]

/-- C8: conversion and comparison are total recursive computations, bounded
by the input's structural size (fuel equal to the size suffices), that end
in a value or one of the two documented failure outcomes; the `get_bits`
word loop likewise terminates within `numWords bit_count` iterations for
every `bit_count`. -/
theorem termination_spec :
    (∀ (v : InterpValue) (f : Nat), v.size ≤ f →
       convert_fuel f v = some (convert_interpreter_value_to_ir v)) ∧
    (∀ (v : InterpValue) (jv : IRValue) (f : Nat), v.size ≤ f →
       compare_fuel f v jv = some (compare_values v jv)) ∧
    (∀ (v : InterpValue) (jv : IRValue),
       compare_values v jv = .ok () ∨
       compare_values v jv = .error .unsupportedConversion ∨
       compare_values v jv = .error .equivalenceMismatch) ∧
    (∀ (b : IRBits) (f : Nat), numWords b.bit_count ≤ f →
       get_bits_loop_fuel b f 0 0 = some (get_bits_loop b 0 0)) := by
  refine ⟨?_, ?_, ?_, ?_⟩
  · intro v f hf
    exact (convert_fuel_adequate f).1 v hf
  · intro v jv f hf
    exact (compare_fuel_adequate f).1 v jv hf
  · intro v jv
    rcases h : compare_values v jv with e | u
    · cases e
      · right
        left
        rfl
      · right
        right
        rfl
    · left
      cases u
      rfl
  · intro b f hf
    exact get_bits_loop_fuel_adequate b f 0 0 (by omega)

/-- Witness for C8: fuel 5 (the structural size) suffices for a nested
tuple-of-array value, and fuel 1 for the one-word loop of a 1-bit value. -/
theorem termination_spec_witness :
    convert_fuel 5 (.tuple [.array [.bits false 1 0]]) =
      some (convert_interpreter_value_to_ir (.tuple [.array [.bits false 1 0]])) ∧
    compare_fuel 5 (.tuple [.array [.bits false 1 0]]) (.bits ⟨[0], 1⟩) =
      some (compare_values (.tuple [.array [.bits false 1 0]]) (.bits ⟨[0], 1⟩)) ∧
    get_bits_loop_fuel ⟨[0], 1⟩ 1 0 0 = some (get_bits_loop ⟨[0], 1⟩ 0 0) :=
  ⟨termination_spec.1 (.tuple [.array [.bits false 1 0]]) 5 (by decide),
   termination_spec.2.1 (.tuple [.array [.bits false 1 0]]) (.bits ⟨[0], 1⟩) 5 (by decide),
   termination_spec.2.2.2 ⟨[0], 1⟩ 1 (by decide)⟩

/-- C9 (amended): whenever the interpreter value is a supported variant
(Bits, Enum, Array or Tuple) but the native value's variant does not match
it, the failure is an equivalence mismatch, never `UnsupportedConversion`;
and for an interpreter value of the unsupported variant,
`UnsupportedConversion` is raised regardless of the native value. For
supported aggregate variants, `UnsupportedConversion` can still surface
from the recursive comparison of elements, so whether it is raised is not
in general independent of the native value. -/
theorem compare_dispatch_spec (jv : IRValue) :
    (∀ signed bit_count value, jv.is_bits = false →
       compare_values (.bits signed bit_count value) jv =
         .error .equivalenceMismatch ∧
       compare_values (.enum signed bit_count value) jv =
         .error .equivalenceMismatch) ∧
    (∀ elements, jv.is_array = false →
       compare_values (.array elements) jv = .error .equivalenceMismatch) ∧
    (∀ members, jv.is_tuple = false →
       compare_values (.tuple members) jv = .error .equivalenceMismatch) ∧
    compare_values .other jv = .error .unsupportedConversion := by
  refine ⟨?_, ?_, ?_, rfl⟩
  · intro signed bit_count value hb
    cases jv with
    | bits jb => simp [IRValue.is_bits] at hb
    | array jels => exact ⟨rfl, rfl⟩
    | tuple jels => exact ⟨rfl, rfl⟩
  · intro elements ha
    cases jv with
    | bits jb => rfl
    | array jels => simp [IRValue.is_array] at ha
    | tuple jels => rfl
  · intro members ht
    cases jv with
    | bits jb => rfl
    | array jels => rfl
    | tuple jels => simp [IRValue.is_tuple] at ht

/-- Counterexample for C9 as stated: for the same interpreter value
`Array [other]`, the comparator raises `UnsupportedConversion` against the
native `Array [Tuple []]` (matching arity, recursion reaches the
unsupported element) but an equivalence mismatch against the native
`Array []` (arity check fails first) — so whether `UnsupportedConversion`
is raised does depend on the native value. -/
theorem compare_dispatch_counterexample :
    compare_values (.array [.other]) (.array [.tuple []]) =
      .error .unsupportedConversion ∧
    compare_values (.array [.other]) (.array []) =
      .error .equivalenceMismatch :=
  ⟨rfl, rfl⟩

/-- Witness for C9 (amended): a Bits interpreter value against a native
Tuple fails with an equivalence mismatch. -/
theorem compare_dispatch_spec_witness :
    compare_values (.bits false 1 0) (.tuple []) = .error .equivalenceMismatch :=
  ((compare_dispatch_spec (.tuple [])).1 false 1 0 rfl).1
